import Mathlib

/-!
Verification development for the simdcsv repository.

The Rust sources (src/classifier.rs, src/u8x16.rs, src/reader.rs) are
shallowly embedded below.  Bytes are modelled as Nat values, the 16-lane
u8x16 vector as a list of 16 byte values, and 64-bit machine words as Nat
with explicit reduction modulo 2 ^ 64 wherever the u64 arithmetic can
overflow.  Fallible operations (Rust panics, i.e. out-of-bounds indexing)
are modelled with Option, returning none at exactly the inputs where the
Rust code panics.
-/

namespace Simdcsv

/-- Class constant COMMA_CLASS from src/classifier.rs. -/
def COMMA_CLASS : Nat := 1

/-- Class constant NEW_LINE_CLASS from src/classifier.rs. -/
def NEW_LINE_CLASS : Nat := 2

/-- Class constant QUOTATION_CLASS from src/classifier.rs. -/
def QUOTATION_CLASS : Nat := 3

/-- Table LO_LOOKUP from src/classifier.rs, indexed by the low nibble. -/
def LO_LOOKUP : List Nat :=
  [0, 0, QUOTATION_CLASS, 0, 0, 0, 0, 0, 0, 0, NEW_LINE_CLASS, 0,
   COMMA_CLASS, NEW_LINE_CLASS, 0, 0]

/-- Table HI_LOOKUP from src/classifier.rs, indexed by the high nibble. -/
def HI_LOOKUP : List Nat :=
  [NEW_LINE_CLASS, 0, COMMA_CLASS ||| QUOTATION_CLASS, 0, 0, 0, 0, 0,
   0, 0, 0, 0, 0, 0, 0, 0]

/-- The u8x16 vector type of src/u8x16.rs, modelled as a list of lanes. -/
abbrev Vec16 := List Nat

/-- Model of the aarch64 vqtbl1q_u8 table lookup used by u8x16.classify:
each lane of the index vector selects a table entry, out-of-range lanes
produce 0. -/
def vqtbl (table : Vec16) (idx : Vec16) : Vec16 :=
  idx.map fun i => table.getD i 0

/-- Model of u8x16.nibbles: the pair of high-nibble and low-nibble
vectors. -/
def nibbles (v : Vec16) : Vec16 × Vec16 :=
  (v.map fun b => (b >>> 4) &&& 0x0F, v.map fun b => b &&& 0x0F)

/-- Model of the lane-wise bitwise AND of two u8x16 values. -/
def vand (a b : Vec16) : Vec16 :=
  List.zipWith (fun x y => x &&& y) a b

/-- The body of CsvClassifier.classify for one loaded vector:
shuffle both lookup tables by the nibbles and AND the results. -/
def classifyVec (lanes : Vec16) : Vec16 :=
  vand (vqtbl HI_LOOKUP (nibbles lanes).1) (vqtbl LO_LOOKUP (nibbles lanes).2)

/-- The per-lane result of classifyVec on a single byte: the AND of the
two nibble-indexed table entries. -/
def classifyByte (b : Nat) : Nat :=
  HI_LOOKUP.getD ((b >>> 4) &&& 0x0F) 0 &&& LO_LOOKUP.getD (b &&& 0x0F) 0

/-- Model of CsvClassifier.load_u8x16.  Returns the loaded vector, the
aligned flag and the new cursor; returns none where the Rust code panics:
in the tail path, indexing data with data.len() - 1 on empty input, and
the write temp1 at index slice.len() when the remaining slice already fills
all 16 lanes. -/
def load_u8x16 (data : List Nat) (cursor : Nat) : Option (Vec16 × Bool × Nat) :=
  if cursor + 16 < data.length then
    some ((data.drop cursor).take 16, true, cursor + 16)
  else
    let slice := data.drop cursor
    let temp := slice ++ List.replicate (16 - slice.length) 0
    match data.getLast? with
    | none => none
    | some last =>
      if last ≠ 0x0A ∧ last ≠ 0x0D then
        if slice.length < 16 then
          some (temp.set slice.length 0x0A, false, data.length)
        else
          none
      else
        some (temp, false, data.length)

/-- The while loop of CsvClassifier.classify, with a fuel argument for
structural recursion; the cursor advances on every iteration, so any fuel
of at least data.length suffices (classify below passes data.length + 1). -/
def classifyLoop (data : List Nat) : Nat → Nat → Option (List Vec16)
  | 0, cursor => if cursor < data.length then none else some []
  | fuel + 1, cursor =>
    if cursor < data.length then
      match load_u8x16 data cursor with
      | none => none
      | some (lanes, _, c2) =>
        match classifyLoop data fuel c2 with
        | none => none
        | some rest => some (classifyVec lanes :: rest)
    else
      some []

/-- Model of CsvClassifier.classify: run the loop from cursor 0. -/
def classify (data : List Nat) : Option (List Vec16) :=
  classifyLoop data (data.length + 1) 0

/-- Model of the composition u8x16.eq(broadcast c): the lane-wise equality
comparison producing 0xFF on equal lanes and 0 elsewhere. -/
def vecEq (v : Vec16) (c : Nat) : Vec16 :=
  v.map fun b => if b = c then 0xFF else 0

/-- Model of u8x16.bitset from src/u8x16.rs: bit 15 - i of the mask is set
iff lane i is nonzero. -/
def bitset (v : Vec16) : Nat :=
  v.enum.foldl (fun mask ib => mask ||| ((if ib.2 ≠ 0 then 1 else 0) <<< (15 - ib.1))) 0

/-- Model of build_u64 from src/reader.rs: pack the eq-bitsets of up to
four vectors into one 64-bit word, vector i occupying bits 63 - 16i down
to 48 - 16i. -/
def build_u64 (chunks : List Vec16) (broadcast : Nat) : Nat :=
  chunks.enum.foldl
    (fun packed ic => packed ||| ((bitset (vecEq ic.2 broadcast)) <<< (48 - ic.1 * 16))) 0

/-- Model of Vec.chunks(4) as used in CsvReader.new. -/
def chunksOf4 : List Vec16 → List (List Vec16)
  | [] => []
  | [a] => [[a]]
  | [a, b] => [[a, b]]
  | [a, b, c] => [[a, b, c]]
  | a :: b :: c :: d :: rest => [a, b, c, d] :: chunksOf4 rest

/-- The CsvReader state from src/reader.rs: three parallel streams of
64-bit bitmap words. -/
structure CsvReader where
  quotation_bitsets : List Nat
  comma_bitsets : List Nat
  new_line_bitsets : List Nat
deriving DecidableEq

/-- Model of CsvReader.new: classify, then fold chunks of four class
vectors into the three bitmap streams.  none where the classifier
panics. -/
def CsvReader.new (data : List Nat) : Option CsvReader :=
  match classify data with
  | none => none
  | some vectors =>
    let cs := chunksOf4 vectors
    some { comma_bitsets := cs.map (fun ch => build_u64 ch COMMA_CLASS)
         , new_line_bitsets := cs.map (fun ch => build_u64 ch NEW_LINE_CLASS)
         , quotation_bitsets := cs.map (fun ch => build_u64 ch QUOTATION_CLASS) }

/-- Model of remove_escaped_quotations from src/reader.rs, on 64-bit
words. -/
def remove_escaped_quotations (q : Nat) : Nat :=
  let escaped := q &&& ((q <<< 1) % 2 ^ 64)
  let escaped2 := escaped ||| (escaped >>> 1)
  q &&& (escaped2 ^^^ (2 ^ 64 - 1))

/-- Model of mark_inside_quotations from src/reader.rs: the xor-shift
cascade followed by a final shift by one, all in 64-bit arithmetic. -/
def mark_inside_quotations (x0 : Nat) : Nat :=
  let x1 := x0 ^^^ ((x0 <<< 1) % 2 ^ 64)
  let x2 := x1 ^^^ ((x1 <<< 2) % 2 ^ 64)
  let x3 := x2 ^^^ ((x2 <<< 4) % 2 ^ 64)
  let x4 := x3 ^^^ ((x3 <<< 8) % 2 ^ 64)
  let x5 := x4 ^^^ ((x4 <<< 16) % 2 ^ 64)
  let x6 := x5 ^^^ ((x5 <<< 32) % 2 ^ 64)
  (x6 <<< 1) % 2 ^ 64

/-- Helper for u64.leading_zeros: count clear bits downward from bit
k - 1. -/
def lzAux (v : Nat) : Nat → Nat
  | 0 => 0
  | k + 1 => if v.testBit k then 0 else lzAux v k + 1

/-- Model of u64.leading_zeros for v < 2 ^ 64. -/
def leading_zeros (v : Nat) : Nat := lzAux v 64

/-- The mutable locals of CsvReader.read: the accumulated rows, the row
being built, and the start and end cursors (end is a Lean keyword, hence
endPos). -/
structure ReadState where
  rows : List (List (Nat × Nat))
  current_row : List (Nat × Nat)
  start : Nat
  endPos : Nat
deriving DecidableEq

/-- The inner loop of CsvReader.read, peeling structural bits from the
current word i.  The fuel only bounds the iteration count for structural
recursion; each pass shifts both masks left by at least one, so fuel 65
always suffices for 64-bit words. -/
def scanWord : Nat → Nat → Nat → Nat → ReadState → Option ReadState
  | 0, _, _, _, _ => none
  | fuel + 1, valid_commas, valid_new_line, i, st =>
    let first_comma := leading_zeros valid_commas
    let first_new_line := leading_zeros valid_new_line
    let bits_traveled := min first_comma first_new_line
    if bits_traveled = 64 then
      some { st with endPos := (i + 1) * 64 }
    else
      let e := st.endPos + bits_traveled
      let st1 :=
        if st.start < e then
          let row2 := st.current_row ++ [(st.start, e)]
          if first_new_line < first_comma then
            { st with rows := st.rows ++ [row2], current_row := [], endPos := e }
          else
            { st with current_row := row2, endPos := e }
        else
          { st with endPos := e }
      scanWord fuel ((valid_commas <<< (bits_traveled + 1)) % 2 ^ 64)
        ((valid_new_line <<< (bits_traveled + 1)) % 2 ^ 64) i
        { st1 with endPos := st1.endPos + 1, start := st1.endPos + 1 }

/-- The outer loop of CsvReader.read over the word index i.  The three
streams are walked in lockstep; a missing comma or newline word models the
panic of indexing a shorter vector (never reached from CsvReader.new,
which builds all three streams with equal length). -/
def readLoop : List Nat → List Nat → List Nat → Nat → ReadState → Option ReadState
  | [], _, _, _, st => some st
  | q :: qs, cs, ns, i, st =>
    match cs, ns with
    | c :: cs2, n :: ns2 =>
      let valid_quotations := remove_escaped_quotations q
      let outside_quotations := (mark_inside_quotations valid_quotations) ^^^ (2 ^ 64 - 1)
      let valid_commas := c &&& outside_quotations
      let valid_new_line := n &&& outside_quotations
      if valid_commas = 0 ∧ valid_new_line = 0 then
        readLoop qs cs2 ns2 (i + 1) { st with endPos := st.endPos + 64 }
      else
        match scanWord 65 valid_commas valid_new_line i st with
        | none => none
        | some st2 => readLoop qs cs2 ns2 (i + 1) st2
    | _, _ => none

/-- Model of CsvReader.read: run the loop over all words and return the
accumulated rows (the pending current_row is dropped, as in the source). -/
def CsvReader.read (r : CsvReader) : Option (List (List (Nat × Nat))) :=
  match readLoop r.quotation_bitsets r.comma_bitsets r.new_line_bitsets 0
      { rows := [], current_row := [], start := 0, endPos := 0 } with
  | none => none
  | some st => some st.rows

/-- CsvReader.read takes self by mutable reference but assigns to none of
its fields; the state-passing translation therefore returns the receiver
unchanged next to the rows. -/
def CsvReader.readMut (r : CsvReader) : CsvReader × Option (List (List (Nat × Nat))) :=
  (r, r.read)

/-- The whole pipeline as exercised by main.rs: build the reader, then
read. -/
def readCsv (data : List Nat) : Option (List (List (Nat × Nat))) :=
  match CsvReader.new data with
  | none => none
  | some r => r.read

/-- A 67-byte input whose first byte opens a quote that is never closed:
an unmatched quote, with the bytes b , c in the second 64-byte word. -/
def unclosedQuoteInput : List Nat :=
  [0x22] ++ List.replicate 63 0x61 ++ [0x62, 0x2C, 0x63]

/-- C1: the claim states that every byte other than 0x2C, 0x22, 0x0A and
0x0D classifies to 0.  In fact the nibble tables overlap: HI_LOOKUP of 2
is COMMA_CLASS ||| QUOTATION_CLASS = 3, whose bit 1 collides with
NEW_LINE_CLASS = 2, so the bytes 0x2A and 0x2D (and, via HI_LOOKUP of 0
and LO_LOOKUP of 2, the byte 0x02) all classify to NEW_LINE_CLASS.  The
full list of bytes with a nonzero class is 0x02, 0x0A, 0x0D, 0x22, 0x2A,
0x2C, 0x2D, not the four delimiters of the claim. -/
theorem classifier_misclassifies_star_dash_stx :
    classifyByte 0x2D = NEW_LINE_CLASS ∧
    classifyByte 0x2A = NEW_LINE_CLASS ∧
    classifyByte 0x02 = NEW_LINE_CLASS ∧
    ((List.range 256).filter fun b => classifyByte b != 0) =
      [0x02, 0x0A, 0x0D, 0x22, 0x2A, 0x2C, 0x2D] := by
  refine ⟨rfl, rfl, rfl, ?_⟩
  decide

/-- C2: the claim states the classifier is total, in particular on inputs
whose length is an exact multiple of 16 ending in a byte that is neither
LF nor CR.  On such inputs (here sixteen 0x61 bytes) the tail path of
load_u8x16 writes the synthetic newline at scratch index slice.len() = 16,
one past the end of the 16-byte scratch array, and the Rust code panics;
the model returns none there.  The empty-input half of the claim does
hold: classify of the empty input is some [] and the whole pipeline
returns an empty row list. -/
theorem classify_panics_on_full_tail_without_newline :
    classify (List.replicate 16 0x61) = none ∧
    CsvReader.new (List.replicate 16 0x61) = none ∧
    classify [] = some ([] : List Vec16) ∧
    readCsv [] = some [] := by
  refine ⟨by decide, by decide, by decide, by decide⟩

/-- C3 counterexample: on unclosedQuoteInput the unmatched opening quote
at byte 0 does not suppress the remainder of the input.  read returns the
row with fields [0, 65) and [66, 67): both fields cover bytes after the
opening quote, and [66, 67) lies entirely in the second 64-byte word,
contradicting the claim that no further fields or rows are emitted after
the unmatched quote. -/
theorem read_after_unclosed_quote_cex :
    readCsv unclosedQuoteInput = some [[(0, 65), (66, 67)]] := by
  decide

/-- C3 amended: an unmatched opening quote outside any quoted region does
not cause the remainder of the input to be suppressed.  The inside-quotes
mask is computed independently per 64-bit word with no carry between
words, so words after the one holding the unmatched quote are processed
as if no quote were open: on unclosedQuoteInput, read emits a row
containing the field [66, 67), which starts after the unmatched quote and
lies in a later 64-byte word. -/
theorem read_emits_fields_after_unclosed_quote :
    ∃ rows, readCsv unclosedQuoteInput = some rows ∧
      ∃ row, row ∈ rows ∧ (66, 67) ∈ row ∧ (66, 67).1 ≤ unclosedQuoteInput.length := by
  refine ⟨[[(0, 65), (66, 67)]], by decide, [(0, 65), (66, 67)], by decide, by decide, by decide⟩

/-- C4: on the input a , LF the claimed row count is
1 + 1 newline - 1 trailing newline = 1 row (the row a, empty-field).  The
code instead returns no rows at all: rows.push in CsvReader.read is
guarded by start < end, so a newline arriving when the pending field is
empty never closes the row and the accumulated current_row is dropped at
the end of read. -/
theorem read_loses_row_ending_in_empty_field :
    readCsv [0x61, 0x2C, 0x0A] = some [] := by
  decide

/-- C5 counterexample: for the word 0b111000 - a run of exactly three
consecutive set bits with no neighbouring set bits - the claim predicts
that the leading (most significant) bit 5 survives as an isolated quote,
i.e. a result of 0b100000.  The code clears all three bits: the pair mask
q and (q shifted left) marks bits 5 and 4, and the or with its right
shift extends the mask to bit 3, so the result is 0. -/
theorem remove_escaped_run3_cex :
    remove_escaped_quotations 0b111000 = 0 ∧
    (remove_escaped_quotations 0b111000).testBit 5 = false := by
  exact ⟨by decide, by decide⟩

/-- C6 counterexample at the claim's own exemplar input: a , , b has two
adjacent unquoted commas, yet the emitted row [[(0, 1), (3, 4)]] contains
no field [s, e) with s = e - the would-be empty field between the commas
is skipped by the start < end guard. -/
theorem read_adjacent_commas_no_empty_field :
    readCsv [0x61, 0x2C, 0x2C, 0x62] = some [[(0, 1), (3, 4)]] := by
  decide

/-- C10: read borrows the reader mutably but never assigns to any of its
three bitmap streams; in the state-passing translation the returned
receiver is the argument itself, so the streams are unchanged and two
consecutive calls return equal row lists. -/
theorem readMut_leaves_reader_unchanged (r : CsvReader) :
    (r.readMut).1.quotation_bitsets = r.quotation_bitsets ∧
    (r.readMut).1.comma_bitsets = r.comma_bitsets ∧
    (r.readMut).1.new_line_bitsets = r.new_line_bitsets ∧
    ((r.readMut).1.readMut).2 = (r.readMut).2 := by
  exact ⟨rfl, rfl, rfl, rfl⟩

/-- C9: for a 64-bit word with no two adjacent set bits, the escaped-pair
mask is empty and remove_escaped_quotations is the identity. -/
theorem remove_escaped_id_of_no_adjacent (q : Nat) (hq : q < 2 ^ 64)
    (h : ∀ k, k < 63 → ¬(q.testBit k = true ∧ q.testBit (k + 1) = true)) :
    remove_escaped_quotations q = q := by
  have hesc : q &&& ((q <<< 1) % 2 ^ 64) = 0 := by
    apply Nat.eq_of_testBit_eq
    intro k
    simp only [Nat.testBit_and, Nat.testBit_mod_two_pow, Nat.testBit_shiftLeft, Nat.zero_testBit]
    by_cases hk64 : k < 64
    · by_cases hk1 : 1 ≤ k
      · have h2 := h (k - 1) (by omega)
        have hkk : k - 1 + 1 = k := by omega
        rw [hkk] at h2
        cases hq1 : q.testBit (k - 1)
        · simp [hq1]
        · cases hqk : q.testBit k
          · simp
          · exact absurd ⟨hq1, hqk⟩ h2
      · have hk0 : k = 0 := by omega
        subst hk0
        simp
    · simp [hk64]
  simp only [remove_escaped_quotations]
  rw [hesc]
  simp only [Nat.zero_shiftRight, Nat.zero_or, Nat.or_zero, Nat.zero_xor]
  rw [Nat.and_pow_two_sub_one_eq_mod]
  exact Nat.mod_eq_of_lt hq

/-- C9 witness: the word 0b101 has no adjacent set bits and is returned
unchanged. -/
theorem remove_escaped_id_of_no_adjacent_witness :
    (5 : Nat) < 2 ^ 64 ∧
    (∀ k, k < 63 → ¬((5 : Nat).testBit k = true ∧ (5 : Nat).testBit (k + 1) = true)) ∧
    remove_escaped_quotations 5 = 5 :=
  ⟨by decide, by decide, remove_escaped_id_of_no_adjacent 5 (by decide) (by decide)⟩

/-- C5 amended: on a run of exactly three consecutive set bits (with no
set neighbours), remove_escaped_quotations clears all three bits of the
run - the two trailing bits and also the leading (most significant,
earliest-byte) bit, which the original claim said survives as an isolated
quote. -/
theorem remove_escaped_clears_run_of_three (q b : Nat) (hq : q < 2 ^ 64) (hb : b + 2 < 64)
    (h0 : q.testBit b = true) (h1 : q.testBit (b + 1) = true) (h2 : q.testBit (b + 2) = true)
    (hup : q.testBit (b + 3) = false) (hdown : b = 0 ∨ q.testBit (b - 1) = false) :
    (remove_escaped_quotations q).testBit b = false ∧
    (remove_escaped_quotations q).testBit (b + 1) = false ∧
    (remove_escaped_quotations q).testBit (b + 2) = false := by
  have c0 : b < 64 := by omega
  have c1 : b + 1 < 64 := by omega
  have c2 : b + 1 + 1 = b + 2 := by omega
  have c3 : 1 ≤ b + 2 := by omega
  have c4 : b + 2 - 1 = b + 1 := by omega
  have c5 : 1 ≤ b + 1 := by omega
  have c6 : b + 1 - 1 = b := by omega
  have c7 : q.testBit (1 + b) = true := by rwa [Nat.add_comm]
  have c8 : 1 + b < 64 := by omega
  refine ⟨?_, ?_, ?_⟩ <;>
  · simp only [remove_escaped_quotations, Nat.testBit_and, Nat.testBit_or, Nat.testBit_xor,
      Nat.testBit_shiftRight, Nat.testBit_mod_two_pow, Nat.testBit_shiftLeft,
      Nat.testBit_two_pow_sub_one, ge_iff_le]
    simp [h0, h1, h2, c0, c1, c2, c3, c4, c5, c6, c7, c8, hb]

/-- C5 witness: the amended theorem applied at the word 0b111000 with the
run based at bit 3. -/
theorem remove_escaped_clears_run_of_three_witness :
    (0b111000 : Nat) < 2 ^ 64 ∧ (3 : Nat) + 2 < 64 ∧
    (0b111000 : Nat).testBit 3 = true ∧ (0b111000 : Nat).testBit 4 = true ∧
    (0b111000 : Nat).testBit 5 = true ∧ (0b111000 : Nat).testBit 6 = false ∧
    (0b111000 : Nat).testBit 2 = false ∧
    ((remove_escaped_quotations 0b111000).testBit 3 = false ∧
     (remove_escaped_quotations 0b111000).testBit 4 = false ∧
     (remove_escaped_quotations 0b111000).testBit 5 = false) :=
  ⟨by decide, by decide, by decide, by decide, by decide, by decide, by decide,
   remove_escaped_clears_run_of_three 0b111000 3 (by decide) (by decide) (by decide)
     (by decide) (by decide) (by decide) (Or.inr (by decide))⟩

/-! Infrastructure lemmas shared by the remaining claims. -/

/-- lzAux never exceeds its window size. -/
theorem lzAux_le (v k : Nat) : lzAux v k ≤ k := by
  induction k with
  | zero => simp [lzAux]
  | succ k ih =>
    by_cases h : v.testBit k <;> simp [lzAux, h] <;> omega

/-- When lzAux finds a set bit, the bit it points at is set. -/
theorem lzAux_testBit (v : Nat) : ∀ k, lzAux v k < k → v.testBit (k - 1 - lzAux v k) = true := by
  intro k
  induction k with
  | zero => intro h; simp [lzAux] at h
  | succ k ih =>
    intro h
    by_cases hb : v.testBit k
    · simpa [lzAux, hb] using hb
    · have he : lzAux v (k + 1) = lzAux v k + 1 := by simp [lzAux, hb]
      rw [he] at h ⊢
      have h2 : lzAux v k < k := by omega
      have hres := ih h2
      have e : k + 1 - 1 - (lzAux v k + 1) = k - 1 - lzAux v k := by omega
      rw [e]
      exact hres

/-- leading_zeros of a set word below 64 points at a set bit. -/
theorem leading_zeros_testBit (v : Nat) (h : leading_zeros v < 64) :
    v.testBit (63 - leading_zeros v) = true := by
  have := lzAux_testBit v 64 h
  simpa [leading_zeros] using this

/-- testBit of a left shift reduced modulo 2 ^ 64. -/
theorem testBit_shl_mod (v s m : Nat) :
    ((v <<< s) % 2 ^ 64).testBit m =
      (decide (m < 64) && (decide (s ≤ m) && v.testBit (m - s))) := by
  simp only [Nat.testBit_mod_two_pow, Nat.testBit_shiftLeft, ge_iff_le]

/-- Characterization of an or-accumulating fold over an enumerated list:
a bit of the result is set iff it is set in the accumulator or in the
image of some indexed element. -/
theorem foldl_or_testBit {α : Type} (f : Nat → α → Nat) (d : α) (v : List α) :
    ∀ n a k, (((List.enumFrom n v).foldl (fun m ib => m ||| f ib.1 ib.2) a).testBit k = true) ↔
      (a.testBit k = true ∨ ∃ i, i < v.length ∧ (f (n + i) (v.getD i d)).testBit k = true) := by
  induction v with
  | nil => intro n a k; simp [List.enumFrom]
  | cons b v ih =>
    intro n a k
    simp only [List.enumFrom, List.foldl_cons]
    rw [ih (n + 1)]
    simp only [Nat.testBit_or, Bool.or_eq_true]
    constructor
    · rintro ((h | h) | ⟨i, hi, hbit⟩)
      · exact Or.inl h
      · exact Or.inr ⟨0, by simp, by simpa using h⟩
      · refine Or.inr ⟨i + 1, by simpa using hi, ?_⟩
        have e : n + (i + 1) = n + 1 + i := by omega
        rw [e]
        simpa using hbit
    · rintro (h | ⟨i, hi, hbit⟩)
      · exact Or.inl (Or.inl h)
      · match i with
        | 0 => exact Or.inl (Or.inr (by simpa using hbit))
        | i + 1 =>
          refine Or.inr ⟨i, by simpa using hi, ?_⟩
          have e : n + 1 + i = n + (i + 1) := by omega
          rw [e]
          simpa using hbit

/-- Characterization of u8x16.bitset: bit k is set iff some lane i is
nonzero and k = 15 - i. -/
theorem bitset_testBit (v : Vec16) (k : Nat) :
    ((bitset v).testBit k = true) ↔ ∃ i, i < v.length ∧ v.getD i 0 ≠ 0 ∧ k = 15 - i := by
  have h := foldl_or_testBit (fun i b => (if b ≠ 0 then 1 else 0) <<< (15 - i)) 0 v 0 0 k
  refine h.trans ?_
  simp only [Nat.zero_testBit, Bool.false_eq_true, false_or, Nat.zero_add]
  constructor
  · rintro ⟨i, hi, hbit⟩
    by_cases hz : v.getD i 0 ≠ 0
    · rw [if_pos hz] at hbit
      rw [Nat.testBit_shiftLeft] at hbit
      simp only [Bool.and_eq_true, decide_eq_true_eq, ge_iff_le] at hbit
      obtain ⟨hge, hone⟩ := hbit
      have h1 := Nat.testBit_one_eq_true_iff_self_eq_zero.mp hone
      refine ⟨i, hi, hz, ?_⟩
      omega
    · rw [if_neg hz] at hbit
      simp [Nat.zero_shiftLeft] at hbit
  · rintro ⟨i, hi, hz, hk⟩
    refine ⟨i, hi, ?_⟩
    rw [if_pos hz, Nat.testBit_shiftLeft]
    subst hk
    simpa using Nat.testBit_one_eq_true_iff_self_eq_zero.mpr rfl

/-- bitset produces a 16-bit value. -/
theorem bitset_lt (v : Vec16) : bitset v < 2 ^ 16 := by
  apply Nat.lt_pow_two_of_testBit
  intro i hge
  cases hbit : (bitset v).testBit i with
  | false => rfl
  | true =>
    rcases (bitset_testBit v i).mp hbit with ⟨l, _, _, hi⟩
    omega

/-- Characterization of build_u64: bit k is set iff some vector i of the
chunk has lane l equal to the broadcast class, at k = 48 - 16i + (15 - l). -/
theorem build_u64_testBit (chunks : List Vec16) (c k : Nat) :
    ((build_u64 chunks c).testBit k = true) ↔
      ∃ i, i < chunks.length ∧ ∃ l, l < (chunks.getD i []).length ∧
        (chunks.getD i []).getD l 0 = c ∧ k = (48 - i * 16) + (15 - l) := by
  have h := foldl_or_testBit (fun i ch => (bitset (vecEq ch c)) <<< (48 - i * 16)) [] chunks 0 0 k
  refine h.trans ?_
  simp only [Nat.zero_testBit, Bool.false_eq_true, false_or, Nat.zero_add]
  constructor
  · rintro ⟨i, hi, hbit⟩
    rw [Nat.testBit_shiftLeft] at hbit
    simp only [Bool.and_eq_true, decide_eq_true_eq, ge_iff_le] at hbit
    obtain ⟨hge, hbs⟩ := hbit
    rcases (bitset_testBit _ _).mp hbs with ⟨l, hl, hnz, he⟩
    rw [vecEq, List.length_map] at hl
    refine ⟨i, hi, l, hl, ?_, by omega⟩
    have hget : (vecEq (chunks.getD i []) c).getD l 0 =
        (if (chunks.getD i []).getD l 0 = c then 0xFF else 0) := by
      rw [vecEq, List.getD_eq_getElem _ _ (by simpa using hl), List.getD_eq_getElem _ _ hl]
      simp
    rw [hget] at hnz
    by_cases hc : (chunks.getD i []).getD l 0 = c
    · exact hc
    · rw [if_neg hc] at hnz; simp at hnz
  · rintro ⟨i, hi, l, hl, hc, hk⟩
    refine ⟨i, hi, ?_⟩
    rw [Nat.testBit_shiftLeft]
    simp only [Bool.and_eq_true, decide_eq_true_eq, ge_iff_le]
    refine ⟨by omega, ?_⟩
    apply (bitset_testBit _ _).mpr
    refine ⟨l, by simpa [vecEq] using hl, ?_, by omega⟩
    have hget : (vecEq (chunks.getD i []) c).getD l 0 =
        (if (chunks.getD i []).getD l 0 = c then 0xFF else 0) := by
      rw [vecEq, List.getD_eq_getElem _ _ (by simpa using hl), List.getD_eq_getElem _ _ hl]
      simp
    rw [hget, if_pos hc]
    simp

/-- build_u64 produces a 64-bit value. -/
theorem build_u64_lt (chunks : List Vec16) (c : Nat) (hlen : chunks.length ≤ 4) :
    build_u64 chunks c < 2 ^ 64 := by
  apply Nat.lt_pow_two_of_testBit
  intro k hge
  cases hbit : (build_u64 chunks c).testBit k with
  | false => rfl
  | true =>
    rcases (build_u64_testBit chunks c k).mp hbit with ⟨i, hi, l, _, _, hk⟩
    omega

/-- Length of the chunk list produced by chunksOf4. -/
theorem chunksOf4_length (vs : List Vec16) : (chunksOf4 vs).length = (vs.length + 3) / 4 := by
  induction vs using chunksOf4.induct <;> simp [chunksOf4, *] <;> omega

/-- Element i of chunk w of chunksOf4 is element 4w + i of the original
list. -/
theorem chunksOf4_getD (vs : List Vec16) :
    ∀ w i, i < 4 → ((chunksOf4 vs).getD w []).getD i [] = vs.getD (4 * w + i) [] := by
  induction vs using chunksOf4.induct with
  | case1 => intro w i _; simp [chunksOf4]
  | case2 a =>
    intro w i hi
    match w with
    | 0 => simp [chunksOf4]
    | w + 1 =>
      rw [chunksOf4]
      rw [List.getD_eq_default _ _ (by simp),
        List.getD_eq_default _ _ (by simp only [List.length_cons, List.length_nil]; omega)]
  | case3 a b =>
    intro w i hi
    match w with
    | 0 => simp [chunksOf4]
    | w + 1 =>
      rw [chunksOf4]
      rw [List.getD_eq_default _ _ (by simp),
        List.getD_eq_default _ _ (by simp only [List.length_cons, List.length_nil]; omega)]
  | case4 a b c =>
    intro w i hi
    match w with
    | 0 => simp [chunksOf4]
    | w + 1 =>
      rw [chunksOf4]
      rw [List.getD_eq_default _ _ (by simp),
        List.getD_eq_default _ _ (by simp only [List.length_cons, List.length_nil]; omega)]
  | case5 a b c d rest ih =>
    intro w i hi
    match w with
    | 0 =>
      rw [chunksOf4]
      interval_cases i <;> simp
    | w + 1 =>
      rw [chunksOf4]
      have e : 4 * (w + 1) + i = 4 * w + i + 1 + 1 + 1 + 1 := by omega
      rw [List.getD_cons_succ, e, List.getD_cons_succ, List.getD_cons_succ,
        List.getD_cons_succ, List.getD_cons_succ]
      exact ih w i hi

/-- Length of chunk w of chunksOf4. -/
theorem chunksOf4_getD_length (vs : List Vec16) :
    ∀ w, ((chunksOf4 vs).getD w []).length = min 4 (vs.length - 4 * w) := by
  induction vs using chunksOf4.induct with
  | case1 => intro w; simp [chunksOf4]
  | case2 a =>
    intro w
    match w with
    | 0 => simp [chunksOf4]
    | w + 1 =>
      rw [chunksOf4, List.getD_eq_default _ _ (by simp)]
      simp only [List.length_nil, List.length_cons]
      omega
  | case3 a b =>
    intro w
    match w with
    | 0 => simp [chunksOf4]
    | w + 1 =>
      rw [chunksOf4, List.getD_eq_default _ _ (by simp)]
      simp only [List.length_nil, List.length_cons]
      omega
  | case4 a b c =>
    intro w
    match w with
    | 0 => simp [chunksOf4]
    | w + 1 =>
      rw [chunksOf4, List.getD_eq_default _ _ (by simp)]
      simp only [List.length_nil, List.length_cons]
      omega
  | case5 a b c d rest ih =>
    intro w
    match w with
    | 0 =>
      rw [chunksOf4]
      simp only [List.getD_cons_zero, List.length_cons, List.length_nil]
      omega
    | w + 1 =>
      rw [chunksOf4, List.getD_cons_succ]
      rw [ih w]
      simp only [List.length_cons]
      omega

/-- getD is unchanged by setting a different index. -/
theorem getD_set_ne {α : Type} (l : List α) (i j : Nat) (a d : α) (h : i ≠ j) :
    (l.set i a).getD j d = l.getD j d := by
  rcases Nat.lt_or_ge j l.length with hj | hj
  · rw [List.getD_eq_getElem _ _ (by simpa using hj), List.getD_eq_getElem _ _ hj]
    exact List.getElem_set_ne h _
  · rw [List.getD_eq_default _ _ (by simpa using hj), List.getD_eq_default _ _ hj]

/-- getD of a replicate of zeros is zero. -/
theorem getD_replicate_zero (n i : Nat) : (List.replicate n (0 : Nat)).getD i 0 = 0 := by
  rcases Nat.lt_or_ge i n with h | h
  · rw [List.getD_eq_getElem _ _ (by simpa using h)]
    simp
  · rw [List.getD_eq_default _ _ (by simpa using h)]

/-- getD of an append within the left part. -/
theorem getD_append_left {α : Type} (a b : List α) (i : Nat) (d : α) (h : i < a.length) :
    (a ++ b).getD i d = a.getD i d := by
  rw [List.getD_eq_getElem _ _ (by simp; omega), List.getD_eq_getElem _ _ h,
    List.getElem_append]
  simp [h]

/-- getD through a 16-byte aligned slice. -/
theorem slice_getD (data : List Nat) (cursor l : Nat) (h : cursor + l < data.length)
    (hl : l < 16) :
    ((data.drop cursor).take 16).getD l 0 = data.getD (cursor + l) 0 := by
  rw [List.getD_eq_getElem _ _ (by simp [List.length_take, List.length_drop]; omega),
    List.getD_eq_getElem _ _ h, List.getElem_take, List.getElem_drop]

/-- getD through a dropped prefix. -/
theorem drop_getD (data : List Nat) (cursor l : Nat) (h : cursor + l < data.length) :
    (data.drop cursor).getD l 0 = data.getD (cursor + l) 0 := by
  rw [List.getD_eq_getElem _ _ (by simp [List.length_drop]; omega),
    List.getD_eq_getElem _ _ h, List.getElem_drop]

/-- classifyVec acts lane-wise. -/
theorem classifyVec_cons (b : Nat) (v : Vec16) :
    classifyVec (b :: v) = classifyByte b :: classifyVec v := rfl

/-- classifyVec is the lane-wise map of classifyByte. -/
theorem classifyVec_eq_map (v : Vec16) : classifyVec v = v.map classifyByte := by
  induction v with
  | nil => rfl
  | cons b v ih => rw [classifyVec_cons, ih, List.map_cons]

/-- classifyVec preserves the lane count. -/
theorem classifyVec_length (v : Vec16) : (classifyVec v).length = v.length := by
  rw [classifyVec_eq_map, List.length_map]

/-- Lane l of classifyVec is classifyByte of lane l. -/
theorem classifyVec_getD (v : Vec16) (l : Nat) (hl : l < v.length) :
    (classifyVec v).getD l 0 = classifyByte (v.getD l 0) := by
  rw [classifyVec_eq_map,
    List.getD_eq_getElem _ _ (by simpa using hl), List.getD_eq_getElem _ _ hl,
    List.getElem_map]

/-- Zero lanes are not structural. -/
theorem classifyByte_zero : classifyByte 0 = 0 := rfl

/-- The synthetic newline lane classifies as NEW_LINE_CLASS. -/
theorem classifyByte_newline : classifyByte 0x0A = NEW_LINE_CLASS := rfl

/-- Characterization of the classifier loop: on success the produced
vector list covers the remaining input in 16-byte windows, each vector
has 16 lanes, lanes over real bytes hold classifyByte of that byte, lanes
past the end of input (plus one) are zero, and the lane exactly at the end
of input is zero or the synthetic newline class. -/
theorem classifyLoop_spec (data : List Nat) :
    ∀ fuel cursor vs, data.length ≤ cursor + fuel →
      classifyLoop data fuel cursor = some vs →
      vs.length = (data.length - cursor + 15) / 16 ∧
      (∀ j, j < vs.length → (vs.getD j []).length = 16) ∧
      (∀ j l, l < 16 → j < vs.length → cursor + 16 * j + l < data.length →
        (vs.getD j []).getD l 0 = classifyByte (data.getD (cursor + 16 * j + l) 0)) ∧
      (∀ j l, l < 16 → j < vs.length → data.length < cursor + 16 * j + l →
        (vs.getD j []).getD l 0 = 0) ∧
      (∀ j l, l < 16 → j < vs.length → cursor + 16 * j + l = data.length →
        (vs.getD j []).getD l 0 = 0 ∨ (vs.getD j []).getD l 0 = NEW_LINE_CLASS) := by
  intro fuel
  induction fuel with
  | zero =>
    intro cursor vs hfuel h
    rw [classifyLoop] at h
    by_cases hc : cursor < data.length
    · rw [if_pos hc] at h
      exact absurd h (by simp)
    · rw [if_neg hc] at h
      have hvs : vs = [] := by simpa using h.symm
      subst hvs
      refine ⟨by simp; omega, ?_, ?_, ?_, ?_⟩ <;> intro j <;> simp
  | succ fuel ih =>
    intro cursor vs hfuel h
    rw [classifyLoop] at h
    by_cases hc : cursor < data.length
    swap
    · rw [if_neg hc] at h
      have hvs : vs = [] := by simpa using h.symm
      subst hvs
      refine ⟨by simp; omega, ?_, ?_, ?_, ?_⟩ <;> intro j <;> simp
    rw [if_pos hc] at h
    split at h
    · exact absurd h (by simp)
    rename_i lanes al c2 hl
    split at h
    · exact absurd h (by simp)
    rename_i rest hr
    simp only [Option.some.injEq] at h
    subst h
    simp only [load_u8x16] at hl
    by_cases hal : cursor + 16 < data.length
    · rw [if_pos hal] at hl
      simp only [Option.some.injEq, Prod.mk.injEq] at hl
      obtain ⟨hlanes, -, hc2⟩ := hl
      subst hlanes
      subst hc2
      obtain ⟨hL, hlen16, hin, hout, hat⟩ := ih (cursor + 16) rest (by omega) hr
      have hslen : ((data.drop cursor).take 16).length = 16 := by
        simp [List.length_take, List.length_drop]
        omega
      refine ⟨?_, ?_, ?_, ?_, ?_⟩
      · simp only [List.length_cons, hL]
        omega
      · intro j hj
        match j with
        | 0 =>
          simpa [classifyVec_length] using hslen
        | j + 1 =>
          exact hlen16 j (by simpa using hj)
      · intro j l hl16 hj hlt
        match j with
        | 0 =>
          simp only [Nat.mul_zero, Nat.add_zero] at hlt ⊢
          rw [List.getD_cons_zero, classifyVec_getD _ _ (by omega),
            slice_getD data cursor l (by omega) hl16]
        | j + 1 =>
          have e : cursor + 16 * (j + 1) + l = cursor + 16 + 16 * j + l := by omega
          rw [e, List.getD_cons_succ]
          exact hin j l hl16 (by simpa using hj) (by omega)
      · intro j l hl16 hj hgt
        match j with
        | 0 =>
          simp only [Nat.mul_zero, Nat.add_zero] at hgt
          omega
        | j + 1 =>
          have e : cursor + 16 * (j + 1) + l = cursor + 16 + 16 * j + l := by omega
          rw [List.getD_cons_succ]
          exact hout j l hl16 (by simpa using hj) (by omega)
      · intro j l hl16 hj heq
        match j with
        | 0 =>
          simp only [Nat.mul_zero, Nat.add_zero] at heq
          omega
        | j + 1 =>
          have e : cursor + 16 * (j + 1) + l = cursor + 16 + 16 * j + l := by omega
          rw [List.getD_cons_succ]
          exact hat j l hl16 (by simpa using hj) (by omega)
    · rw [if_neg hal] at hl
      split at hl
      · exact absurd hl (by simp)
      rename_i last hgl
      have hr0 : 1 ≤ data.length - cursor := by omega
      have hr16 : data.length - cursor ≤ 16 := by omega
      have hdlen : (data.drop cursor).length = data.length - cursor := by
        simp [List.length_drop]
      have htlen : ((data.drop cursor) ++
          List.replicate (16 - (data.drop cursor).length) 0).length = 16 := by
        simp [List.length_append, List.length_replicate, hdlen]
        omega
      by_cases hnz : last ≠ 0x0A ∧ last ≠ 0x0D
      · rw [if_pos hnz] at hl
        by_cases hs16 : (data.drop cursor).length < 16
        swap
        · rw [if_neg hs16] at hl
          exact absurd hl (by simp)
        rw [if_pos hs16] at hl
        simp only [Option.some.injEq, Prod.mk.injEq] at hl
        obtain ⟨hlanes, -, hc2⟩ := hl
        subst hlanes
        subst hc2
        obtain ⟨hL, -, -, -, -⟩ := ih data.length rest (by omega) hr
        have hrest : rest = [] := by
          apply List.length_eq_zero.mp
          rw [hL]
          omega
        subst hrest
        have hlaneslen :
            (((data.drop cursor) ++ List.replicate (16 - (data.drop cursor).length) 0).set
              (data.drop cursor).length 0x0A).length = 16 := by
          simpa [List.length_set] using htlen
        refine ⟨?_, ?_, ?_, ?_, ?_⟩
        · simp only [List.length_cons, List.length_nil]
          omega
        · intro j hj
          match j with
          | 0 => simpa [classifyVec_length] using hlaneslen
        · intro j l hl16 hj hlt
          match j with
          | 0 =>
            simp only [Nat.mul_zero, Nat.add_zero] at hlt ⊢
            rw [List.getD_cons_zero, classifyVec_getD _ _ (by omega)]
            have hlr : l < (data.drop cursor).length := by omega
            rw [getD_set_ne _ _ _ _ _ (by omega),
              getD_append_left _ _ _ _ hlr, drop_getD data cursor l (by omega)]
        · intro j l hl16 hj hgt
          match j with
          | 0 =>
            simp only [Nat.mul_zero, Nat.add_zero] at hgt
            rw [List.getD_cons_zero, classifyVec_getD _ _ (by omega)]
            have hlr : (data.drop cursor).length < l := by omega
            rw [getD_set_ne _ _ _ _ _ (by omega),
              List.getD_append_right _ _ _ _ (by omega), getD_replicate_zero]
            exact classifyByte_zero
        · intro j l hl16 hj heq
          match j with
          | 0 =>
            simp only [Nat.mul_zero, Nat.add_zero] at heq
            have hlr : l = (data.drop cursor).length := by omega
            subst hlr
            rw [List.getD_cons_zero, classifyVec_getD _ _ (by omega)]
            right
            rw [List.getD_eq_getElem _ _ (by omega)]
            rw [List.getElem_set_self (by omega)]
            exact classifyByte_newline
      · rw [if_neg hnz] at hl
        simp only [Option.some.injEq, Prod.mk.injEq] at hl
        obtain ⟨hlanes, -, hc2⟩ := hl
        subst hlanes
        subst hc2
        obtain ⟨hL, -, -, -, -⟩ := ih data.length rest (by omega) hr
        have hrest : rest = [] := by
          apply List.length_eq_zero.mp
          rw [hL]
          omega
        subst hrest
        refine ⟨?_, ?_, ?_, ?_, ?_⟩
        · simp only [List.length_cons, List.length_nil]
          omega
        · intro j hj
          match j with
          | 0 => simpa [classifyVec_length] using htlen
        · intro j l hl16 hj hlt
          match j with
          | 0 =>
            simp only [Nat.mul_zero, Nat.add_zero] at hlt ⊢
            rw [List.getD_cons_zero, classifyVec_getD _ _ (by omega)]
            have hlr : l < (data.drop cursor).length := by omega
            rw [getD_append_left _ _ _ _ hlr, drop_getD data cursor l (by omega)]
        · intro j l hl16 hj hgt
          match j with
          | 0 =>
            simp only [Nat.mul_zero, Nat.add_zero] at hgt
            rw [List.getD_cons_zero, classifyVec_getD _ _ (by omega)]
            rw [List.getD_append_right _ _ _ _ (by omega), getD_replicate_zero]
            exact classifyByte_zero
        · intro j l hl16 hj heq
          match j with
          | 0 =>
            simp only [Nat.mul_zero, Nat.add_zero] at heq
            rw [List.getD_cons_zero, classifyVec_getD _ _ (by omega)]
            left
            rw [List.getD_append_right _ _ _ _ (by omega), getD_replicate_zero]
            exact classifyByte_zero

/-- Characterization of classify, phrased with absolute byte positions. -/
theorem classify_spec (data : List Nat) (vs : List Vec16) (h : classify data = some vs) :
    vs.length = (data.length + 15) / 16 ∧
    (∀ j, j < vs.length → (vs.getD j []).length = 16) ∧
    (∀ p, p < data.length →
      (vs.getD (p / 16) []).getD (p % 16) 0 = classifyByte (data.getD p 0)) ∧
    (∀ j l, l < 16 → j < vs.length → data.length < 16 * j + l →
      (vs.getD j []).getD l 0 = 0) ∧
    (∀ j l, l < 16 → j < vs.length → 16 * j + l = data.length →
      (vs.getD j []).getD l 0 = 0 ∨ (vs.getD j []).getD l 0 = NEW_LINE_CLASS) := by
  obtain ⟨h1, h2, h3, h4, h5⟩ :=
    classifyLoop_spec data (data.length + 1) 0 vs (by omega) h
  refine ⟨by simpa using h1, h2, ?_, ?_, ?_⟩
  · intro p hp
    have hj : p / 16 < vs.length := by
      rw [h1]
      omega
    have hval := h3 (p / 16) (p % 16) (by omega) hj (by omega)
    have e : 0 + 16 * (p / 16) + p % 16 = p := by omega
    rw [e] at hval
    exact hval
  · intro j l hl hj hgt
    exact h4 j l hl hj (by omega)
  · intro j l hl hj heq
    exact h5 j l hl hj (by omega)

/-- CsvReader.new produces the three streams as chunked build_u64 maps of
the classify output. -/
theorem new_streams (data : List Nat) (r : CsvReader) (h : CsvReader.new data = some r) :
    ∃ vs, classify data = some vs ∧
      r.comma_bitsets = (chunksOf4 vs).map (fun ch => build_u64 ch COMMA_CLASS) ∧
      r.new_line_bitsets = (chunksOf4 vs).map (fun ch => build_u64 ch NEW_LINE_CLASS) ∧
      r.quotation_bitsets = (chunksOf4 vs).map (fun ch => build_u64 ch QUOTATION_CLASS) := by
  unfold CsvReader.new at h
  split at h
  · exact absurd h (by simp)
  rename_i vs hvs
  simp only [Option.some.injEq] at h
  subst h
  exact ⟨vs, hvs, rfl, rfl, rfl⟩

/-- getD through a map over chunk lists. -/
theorem getD_map_chunks (cs : List (List Vec16)) (f : List Vec16 → Nat) (w : Nat)
    (hw : w < cs.length) :
    (cs.map f).getD w 0 = f (cs.getD w []) := by
  rw [List.getD_eq_getElem _ _ (by simpa using hw), List.getD_eq_getElem _ _ hw,
    List.getElem_map]

/-- The central word-level fact: bit 63 - p mod 64 of word p / 64 in the
stream built for class c is set iff lane p mod 16 of vector p div 16 of the
classify output equals c. -/
theorem stream_word_testBit (vs : List Vec16)
    (hlen16 : ∀ j, j < vs.length → (vs.getD j []).length = 16)
    (c p : Nat) (hp : p / 64 < (chunksOf4 vs).length) :
    ((((chunksOf4 vs).map fun ch => build_u64 ch c).getD (p / 64) 0).testBit (63 - p % 64) = true)
    ↔ (p / 16 < vs.length ∧ (vs.getD (p / 16) []).getD (p % 16) 0 = c) := by
  rw [getD_map_chunks _ _ _ hp]
  rw [build_u64_testBit]
  have hchl : ((chunksOf4 vs).getD (p / 64) []).length = min 4 (vs.length - 4 * (p / 64)) :=
    chunksOf4_getD_length vs (p / 64)
  constructor
  · rintro ⟨i, hi, l, hl, hc, hk⟩
    rw [hchl] at hi
    have hieq : ((chunksOf4 vs).getD (p / 64) []).getD i [] = vs.getD (4 * (p / 64) + i) [] :=
      chunksOf4_getD vs (p / 64) i (by omega)
    have hjlt : 4 * (p / 64) + i < vs.length := by omega
    have hvl : (vs.getD (4 * (p / 64) + i) []).length = 16 := hlen16 _ hjlt
    rw [hieq] at hl hc
    rw [hvl] at hl
    have hieq2 : i = (p % 64) / 16 ∧ l = p % 16 := by omega
    obtain ⟨rfl, rfl⟩ := hieq2
    have hpj : 4 * (p / 64) + p % 64 / 16 = p / 16 := by omega
    rw [hpj] at hc hjlt
    exact ⟨hjlt, hc⟩
  · rintro ⟨hjlt, hc⟩
    have hpj : 4 * (p / 64) + p % 64 / 16 = p / 16 := by omega
    refine ⟨(p % 64) / 16, ?_, p % 16, ?_, ?_, ?_⟩
    · rw [hchl]
      omega
    · rw [chunksOf4_getD vs (p / 64) _ (by omega), hpj, hlen16 _ hjlt]
      omega
    · rw [chunksOf4_getD vs (p / 64) _ (by omega), hpj]
      exact hc
    · omega

set_option maxHeartbeats 1000000 in
/-- Any set bit of any word of a comma or newline stream corresponds to a
byte position at or before the end of input (the synthetic newline sits
exactly at the end). -/
theorem stream_word_bit_bound (data : List Nat) (vs : List Vec16)
    (hvs : classify data = some vs) (c : Nat)
    (hc : c = COMMA_CLASS ∨ c = NEW_LINE_CLASS) (widx k : Nat)
    (hbit : ((((chunksOf4 vs).map fun ch => build_u64 ch c).getD widx 0).testBit k = true)) :
    k < 64 ∧ 64 * widx + (63 - k) ≤ data.length := by
  obtain ⟨h1, h2, h3, h4, h5⟩ := classify_spec data vs hvs
  rcases Nat.lt_or_ge widx (chunksOf4 vs).length with hw | hw
  swap
  · rw [List.getD_eq_default _ _ (by simpa using hw)] at hbit
    simp at hbit
  have hk64 : k < 64 := by
    rcases Nat.lt_or_ge k 64 with h64 | h64
    · exact h64
    · rw [getD_map_chunks _ _ _ hw] at hbit
      have hlt : build_u64 ((chunksOf4 vs).getD widx []) c < 2 ^ 64 := by
        apply build_u64_lt
        rw [chunksOf4_getD_length]
        omega
      have : build_u64 ((chunksOf4 vs).getD widx []) c < 2 ^ k :=
        lt_of_lt_of_le hlt (Nat.pow_le_pow_right (by omega) h64)
      rw [Nat.testBit_lt_two_pow this] at hbit
      exact absurd hbit (by simp)
  refine ⟨hk64, ?_⟩
  have hpw : (64 * widx + (63 - k)) / 64 = widx := by omega
  have hpk : 63 - (64 * widx + (63 - k)) % 64 = k := by omega
  have hiff := stream_word_testBit vs h2 c (64 * widx + (63 - k)) (by rw [hpw]; exact hw)
  rw [hpw, hpk] at hiff
  obtain ⟨hjlt, hlane⟩ := hiff.mp hbit
  rcases Nat.lt_or_ge data.length (64 * widx + (63 - k)) with hgt | hle
  · exfalso
    have hz := h4 ((64 * widx + (63 - k)) / 16) ((64 * widx + (63 - k)) % 16)
      (by omega) hjlt (by omega)
    rw [hz] at hlane
    rcases hc with rfl | rfl <;> simp [COMMA_CLASS, NEW_LINE_CLASS] at hlane
  · exact hle

/-- C8: for every input byte at position p, with w = p / 64 and
k = 63 - p mod 64, bit k of word w of each stream built by CsvReader.new
is set iff the classifier assigns that byte the corresponding class. -/
theorem bitmap_streams_bit_iff (data : List Nat) (r : CsvReader)
    (h : CsvReader.new data = some r) (p : Nat) (hp : p < data.length) :
    ((r.comma_bitsets.getD (p / 64) 0).testBit (63 - p % 64) = true ↔
      classifyByte (data.getD p 0) = COMMA_CLASS) ∧
    ((r.new_line_bitsets.getD (p / 64) 0).testBit (63 - p % 64) = true ↔
      classifyByte (data.getD p 0) = NEW_LINE_CLASS) ∧
    ((r.quotation_bitsets.getD (p / 64) 0).testBit (63 - p % 64) = true ↔
      classifyByte (data.getD p 0) = QUOTATION_CLASS) := by
  obtain ⟨vs, hvs, hcw, hnw, hqw⟩ := new_streams data r h
  obtain ⟨h1, h2, h3, h4, h5⟩ := classify_spec data vs hvs
  have hp16 : p / 16 < vs.length := by
    rw [h1]
    omega
  have hp64 : p / 64 < (chunksOf4 vs).length := by
    rw [chunksOf4_length, h1]
    omega
  have hlane := h3 p hp
  refine ⟨?_, ?_, ?_⟩
  · rw [hcw, stream_word_testBit vs h2 COMMA_CLASS p hp64]
    constructor
    · rintro ⟨-, he⟩
      rw [hlane] at he
      exact he
    · intro hcb
      refine ⟨hp16, ?_⟩
      rw [hlane]
      exact hcb
  · rw [hnw, stream_word_testBit vs h2 NEW_LINE_CLASS p hp64]
    constructor
    · rintro ⟨-, he⟩
      rw [hlane] at he
      exact he
    · intro hcb
      refine ⟨hp16, ?_⟩
      rw [hlane]
      exact hcb
  · rw [hqw, stream_word_testBit vs h2 QUOTATION_CLASS p hp64]
    constructor
    · rintro ⟨-, he⟩
      rw [hlane] at he
      exact he
    · intro hcb
      refine ⟨hp16, ?_⟩
      rw [hlane]
      exact hcb

/-- C8 witness: the theorem applied to the input a , LF at position 1,
whose comma bit sits at bit 62 of word 0. -/
theorem bitmap_streams_bit_iff_witness :
    CsvReader.new [0x61, 0x2C, 0x0A] =
      some (CsvReader.mk [0] [4611686018427387904] [2305843009213693952]) ∧
    (1 : Nat) < [0x61, 0x2C, 0x0A].length ∧
    (((CsvReader.mk [0] [4611686018427387904]
        [2305843009213693952]).comma_bitsets.getD (1 / 64) 0).testBit (63 - 1 % 64) = true ↔
      classifyByte ([0x61, 0x2C, 0x0A].getD 1 0) = COMMA_CLASS) :=
  ⟨by decide, by decide,
    (bitmap_streams_bit_iff [0x61, 0x2C, 0x0A]
      (CsvReader.mk [0] [4611686018427387904] [2305843009213693952])
      (by decide) 1 (by decide)).1⟩

/-- Invariant preservation through the inner structural-bit scan: if every
set bit of both masks lies at a byte position at most N (measured from the
running end cursor), then every field ever pushed is nonempty and ends at
or before N, and the scan leaves the end cursor at the start of the next
word. -/
theorem scanWord_spec (N : Nat) :
    ∀ fuel vc vnl i st st2,
      scanWord fuel vc vnl i st = some st2 →
      (∀ k, vc.testBit k = true → k < 64 ∧ st.endPos + (63 - k) ≤ N) →
      (∀ k, vnl.testBit k = true → k < 64 ∧ st.endPos + (63 - k) ≤ N) →
      (∀ r ∈ st.rows, ∀ f ∈ r, f.1 < f.2 ∧ f.2 ≤ N) →
      (∀ f ∈ st.current_row, f.1 < f.2 ∧ f.2 ≤ N) →
      ((∀ r ∈ st2.rows, ∀ f ∈ r, f.1 < f.2 ∧ f.2 ≤ N) ∧
       (∀ f ∈ st2.current_row, f.1 < f.2 ∧ f.2 ≤ N) ∧
       st2.endPos = (i + 1) * 64) := by
  intro fuel
  induction fuel with
  | zero =>
    intro vc vnl i st st2 h _ _ _ _
    rw [scanWord] at h
    exact absurd h (by simp)
  | succ fuel ih =>
    intro vc vnl i st st2 h hvc hvnl hrows hcur
    simp only [scanWord] at h
    by_cases h64 : min (leading_zeros vc) (leading_zeros vnl) = 64
    · rw [if_pos h64] at h
      simp only [Option.some.injEq] at h
      subst h
      exact ⟨hrows, hcur, rfl⟩
    · rw [if_neg h64] at h
      have htr : min (leading_zeros vc) (leading_zeros vnl) < 64 := by
        have h1 := lzAux_le vc 64
        have h2 := lzAux_le vnl 64
        simp only [leading_zeros] at h64 ⊢
        omega
      have heN : st.endPos + min (leading_zeros vc) (leading_zeros vnl) ≤ N := by
        rcases Nat.le_total (leading_zeros vc) (leading_zeros vnl) with hle | hle
        · rw [Nat.min_eq_left hle] at htr ⊢
          have hb := leading_zeros_testBit vc htr
          have := hvc _ hb
          omega
        · rw [Nat.min_eq_right hle] at htr ⊢
          have hb := leading_zeros_testBit vnl htr
          have := hvnl _ hb
          omega
      have hmaskC : ∀ k,
          ((vc <<< (min (leading_zeros vc) (leading_zeros vnl) + 1)) % 2 ^ 64).testBit k = true →
          k < 64 ∧
            (st.endPos + min (leading_zeros vc) (leading_zeros vnl) + 1) + (63 - k) ≤ N := by
        intro k hk
        rw [testBit_shl_mod] at hk
        simp only [Bool.and_eq_true, decide_eq_true_eq] at hk
        obtain ⟨hk64, hks, hkb⟩ := hk
        have hold := hvc _ hkb
        exact ⟨hk64, by omega⟩
      have hmaskN : ∀ k,
          ((vnl <<< (min (leading_zeros vc) (leading_zeros vnl) + 1)) % 2 ^ 64).testBit k = true →
          k < 64 ∧
            (st.endPos + min (leading_zeros vc) (leading_zeros vnl) + 1) + (63 - k) ≤ N := by
        intro k hk
        rw [testBit_shl_mod] at hk
        simp only [Bool.and_eq_true, decide_eq_true_eq] at hk
        obtain ⟨hk64, hks, hkb⟩ := hk
        have hold := hvnl _ hkb
        exact ⟨hk64, by omega⟩
      by_cases hse : st.start < st.endPos + min (leading_zeros vc) (leading_zeros vnl)
      · rw [if_pos hse] at h
        by_cases hnc : leading_zeros vnl < leading_zeros vc
        · rw [if_pos hnc] at h
          refine ih _ _ _ _ _ h hmaskC hmaskN ?_ ?_
          · intro r hr f hf
            simp only [List.mem_append, List.mem_singleton] at hr
            rcases hr with hr | hr
            · exact hrows r hr f hf
            · subst hr
              simp only [List.mem_append, List.mem_singleton] at hf
              rcases hf with hf | hf
              · exact hcur f hf
              · subst hf
                exact ⟨hse, heN⟩
          · intro f hf
            simp at hf
        · rw [if_neg hnc] at h
          refine ih _ _ _ _ _ h hmaskC hmaskN ?_ ?_
          · intro r hr f hf
            exact hrows r hr f hf
          · intro f hf
            simp only [List.mem_append, List.mem_singleton] at hf
            rcases hf with hf | hf
            · exact hcur f hf
            · subst hf
              exact ⟨hse, heN⟩
      · rw [if_neg hse] at h
        refine ih _ _ _ _ _ h hmaskC hmaskN ?_ ?_
        · intro r hr f hf
          exact hrows r hr f hf
        · intro f hf
          exact hcur f hf

/-- Invariant preservation through the outer word loop of CsvReader.read:
if every set bit of the comma and newline streams lies at a byte position
at most N, every emitted field is nonempty and ends at or before N. -/
theorem readLoop_spec (N : Nat) :
    ∀ qs cs ns i st st2,
      readLoop qs cs ns i st = some st2 →
      st.endPos = 64 * i →
      (∀ widx k, (cs.getD widx 0).testBit k = true →
        k < 64 ∧ 64 * (i + widx) + (63 - k) ≤ N) →
      (∀ widx k, (ns.getD widx 0).testBit k = true →
        k < 64 ∧ 64 * (i + widx) + (63 - k) ≤ N) →
      (∀ r ∈ st.rows, ∀ f ∈ r, f.1 < f.2 ∧ f.2 ≤ N) →
      (∀ f ∈ st.current_row, f.1 < f.2 ∧ f.2 ≤ N) →
      (∀ r ∈ st2.rows, ∀ f ∈ r, f.1 < f.2 ∧ f.2 ≤ N) := by
  intro qs
  induction qs with
  | nil =>
    intro cs ns i st st2 h hend hcs hns hrows hcur
    rw [readLoop] at h
    simp only [Option.some.injEq] at h
    subst h
    exact hrows
  | cons q qs ih =>
    intro cs ns i st st2 h hend hcs hns hrows hcur
    rcases cs with _ | ⟨c, cs2⟩
    · rw [readLoop] at h
      · exact Option.noConfusion h
      · intro c1 cs21 n1 ns21 hc1 hn1
        exact List.noConfusion hc1
    rcases ns with _ | ⟨n, ns2⟩
    · rw [readLoop] at h
      · exact Option.noConfusion h
      · intro c1 cs21 n1 ns21 hc1 hn1
        exact List.noConfusion hn1
    simp only [readLoop] at h
    by_cases hzero :
        c &&& ((mark_inside_quotations (remove_escaped_quotations q)) ^^^ (2 ^ 64 - 1)) = 0 ∧
        n &&& ((mark_inside_quotations (remove_escaped_quotations q)) ^^^ (2 ^ 64 - 1)) = 0
    · rw [if_pos hzero] at h
      refine ih cs2 ns2 (i + 1) _ st2 h (by simp; omega) ?_ ?_ hrows hcur
      · intro widx k hk
        have h2 := hcs (widx + 1) k (by simpa using hk)
        exact ⟨h2.1, by omega⟩
      · intro widx k hk
        have h2 := hns (widx + 1) k (by simpa using hk)
        exact ⟨h2.1, by omega⟩
    · rw [if_neg hzero] at h
      split at h
      · exact absurd h (by simp)
      rename_i st3 hscan
      have hsw := scanWord_spec N 65
        (c &&& ((mark_inside_quotations (remove_escaped_quotations q)) ^^^ (2 ^ 64 - 1)))
        (n &&& ((mark_inside_quotations (remove_escaped_quotations q)) ^^^ (2 ^ 64 - 1)))
        i st st3 hscan ?_ ?_ hrows hcur
      · obtain ⟨hrows3, hcur3, hend3⟩ := hsw
        refine ih cs2 ns2 (i + 1) st3 st2 h (by omega) ?_ ?_ hrows3 hcur3
        · intro widx k hk
          have h2 := hcs (widx + 1) k (by simpa using hk)
          exact ⟨h2.1, by omega⟩
        · intro widx k hk
          have h2 := hns (widx + 1) k (by simpa using hk)
          exact ⟨h2.1, by omega⟩
      · intro k hk
        simp only [Nat.testBit_and, Bool.and_eq_true] at hk
        have h2 := hcs 0 k hk.1
        exact ⟨h2.1, by omega⟩
      · intro k hk
        simp only [Nat.testBit_and, Bool.and_eq_true] at hk
        have h2 := hns 0 k hk.1
        exact ⟨h2.1, by omega⟩

/-- Every field emitted by the full pipeline is nonempty and lies inside
the input: the shared invariant behind the field-range claims. -/
theorem readCsv_fields_spec (data : List Nat) (rows : List (List (Nat × Nat)))
    (h : readCsv data = some rows) :
    ∀ r ∈ rows, ∀ f ∈ r, f.1 < f.2 ∧ f.2 ≤ data.length := by
  unfold readCsv at h
  split at h
  · exact absurd h (by simp)
  rename_i r hnew
  unfold CsvReader.read at h
  split at h
  · exact absurd h (by simp)
  rename_i st hloop
  simp only [Option.some.injEq] at h
  subst h
  obtain ⟨vs, hvs, hcw, hnw, hqw⟩ := new_streams data r hnew
  refine readLoop_spec data.length r.quotation_bitsets r.comma_bitsets r.new_line_bitsets
    0 _ st hloop rfl ?_ ?_ (by simp) (by simp)
  · intro widx k hk
    rw [hcw] at hk
    have h2 := stream_word_bit_bound data vs hvs COMMA_CLASS (Or.inl rfl) widx k hk
    exact ⟨h2.1, by omega⟩
  · intro widx k hk
    rw [hnw] at hk
    have h2 := stream_word_bit_bound data vs hvs NEW_LINE_CLASS (Or.inr rfl) widx k hk
    exact ⟨h2.1, by omega⟩

/-- C6 amended: rows returned by read never contain an empty field
reference: every emitted field [s, e) satisfies s < e, because the push in
CsvReader.read is guarded by start < end; adjacent unquoted commas
contribute no field for the empty slot.  This proves the negation of the
original claim over all inputs on which the pipeline completes. -/
theorem read_never_emits_empty_field (data : List Nat) (rows : List (List (Nat × Nat)))
    (h : readCsv data = some rows) :
    ∀ r ∈ rows, ∀ f ∈ r, f.1 < f.2 := by
  intro r hr f hf
  exact (readCsv_fields_spec data rows h r hr f hf).1

/-- C6 witness: the theorem applied to the input a , b. -/
theorem read_never_emits_empty_field_witness :
    readCsv [0x61, 0x2C, 0x62] = some [[(0, 1), (2, 3)]] ∧
    (∀ r ∈ [[(0, 1), (2, 3)]], ∀ f ∈ r, f.1 < f.2) :=
  ⟨by decide,
   read_never_emits_empty_field [0x61, 0x2C, 0x62] [[(0, 1), (2, 3)]] (by decide)⟩

/-- C7: on every input on which the pipeline completes, every field range
[s, e) of every returned row satisfies 0 ≤ s ≤ e ≤ N where N is the input
length (the synthetic newline sits at position N, so fields never reach
past the end of input). -/
theorem read_fields_within_bounds (data : List Nat) (rows : List (List (Nat × Nat)))
    (h : readCsv data = some rows) :
    ∀ r ∈ rows, ∀ f ∈ r, 0 ≤ f.1 ∧ f.1 ≤ f.2 ∧ f.2 ≤ data.length := by
  intro r hr f hf
  obtain ⟨h1, h2⟩ := readCsv_fields_spec data rows h r hr f hf
  exact ⟨Nat.zero_le _, Nat.le_of_lt h1, h2⟩

/-- C7 witness: the theorem applied to the input ab , cd of length 5. -/
theorem read_fields_within_bounds_witness :
    readCsv [0x61, 0x62, 0x2C, 0x63, 0x64] = some [[(0, 2), (3, 5)]] ∧
    (∀ r ∈ [[(0, 2), (3, 5)]], ∀ f ∈ r,
      0 ≤ f.1 ∧ f.1 ≤ f.2 ∧ f.2 ≤ [0x61, 0x62, 0x2C, 0x63, 0x64].length) :=
  ⟨by decide,
   read_fields_within_bounds [0x61, 0x62, 0x2C, 0x63, 0x64] [[(0, 2), (3, 5)]] (by decide)⟩

end Simdcsv
